import Mathlib

/-!
Verification of the trapezoidation core of the `triangulate` repository:
the `Trapezoid` record and its split/set operations (src/trapezoid.rs),
the `QueryNode` decision-DAG node and its branch/merge operations
(src/querynode.rs), and the bijection invariant between live trapezoids
and DAG leaves maintained by the incremental insertion steps.

Arena handles (`Idx<T>` in the source) are lightweight copyable integers;
they are embedded as `Nat`. The coordinate payload type (`Coords<C>` in
the source, defined outside the visible sources) is kept as a type
parameter `C` of the query-node types.
-/

namespace Triangulate

/-- Handle into the segment arena (`Idx<Segment>` in the source). -/
abbrev SegIdx := Nat

/-- Handle into the nexus (vertex event) arena (`Idx<Nexus>`). -/
abbrev NexusIdx := Nat

/-- Handle into the query-node arena (`Idx<QueryNode>`). -/
abbrev QIdx := Nat

/-- Handle into the trapezoid arena (`Idx<Trapezoid>`). -/
abbrev TIdx := Nat

/-- A trapezoid of the trapezoidation (struct `Trapezoid` in
src/trapezoid.rs): nullable left/right segment bounds, nullable
down/up vertex-event bounds, and the handle of its DAG leaf. -/
structure Trapezoid where
  left : Option SegIdx
  right : Option SegIdx
  down : Option NexusIdx
  up : Option NexusIdx
  sink : QIdx
deriving DecidableEq, Repr

namespace Trapezoid

/-- `Trapezoid::all`: a trapezoid unconstrained in all four directions,
associated with the given sink node. -/
def all (sink : QIdx) : Trapezoid :=
  { left := none, right := none, down := none, up := none, sink := sink }

/-- `Trapezoid::split_vertical(&mut self, qi_left, qi_right, si)`:
the Rust method mutates the receiver and returns the right piece; it is
embedded as a pure function returning (new receiver value, right piece).
The right piece copies the receiver's `right`, `down`, `up`, takes `left
:= some si` and `sink := qi_right`; the receiver then gets `right := some
si` and `sink := qi_left`. -/
def split_vertical (t : Trapezoid) (qi_left qi_right : QIdx) (si : SegIdx) :
    Trapezoid × Trapezoid :=
  let t_right : Trapezoid :=
    { left := some si, right := t.right, down := t.down, up := t.up, sink := qi_right }
  ({ t with right := some si, sink := qi_left }, t_right)

/-- `Trapezoid::split_horizontal(&mut self, qi_down, qi_up, ni)`:
embedded as (new receiver value, up piece). The up piece copies `left`,
`right`, `up` and takes `down := some ni`, `sink := qi_up`; the receiver
then gets `up := some ni` and `sink := qi_down`. -/
def split_horizontal (t : Trapezoid) (qi_down qi_up : QIdx) (ni : NexusIdx) :
    Trapezoid × Trapezoid :=
  let t_up : Trapezoid :=
    { left := t.left, right := t.right, down := some ni, up := t.up, sink := qi_up }
  ({ t with up := some ni, sink := qi_down }, t_up)

/-- `Trapezoid::set_down`: sets the lower bound. -/
def set_down (t : Trapezoid) (ni : NexusIdx) : Trapezoid :=
  { t with down := some ni }

/-- `Trapezoid::set_left`: sets the left bound. -/
def set_left (t : Trapezoid) (si : SegIdx) : Trapezoid :=
  { t with left := some si }

/-- `Trapezoid::set_right`: sets the right bound. -/
def set_right (t : Trapezoid) (si : SegIdx) : Trapezoid :=
  { t with right := some si }

/-- `Trapezoid::set_sink`: sets the sink handle. -/
def set_sink (t : Trapezoid) (qi : QIdx) : Trapezoid :=
  { t with sink := qi }

end Trapezoid

/-- The discrimination payload of a DAG branch node (enum
`QueryNodeBranch` in src/querynode.rs). `C` stands for the coordinate
payload type `Coords<C>` of the source, which is opaque to this core. -/
inductive QueryNodeBranch (C : Type) where
  | X : C → C → QueryNodeBranch C
  | Y : C → QueryNodeBranch C
deriving DecidableEq, Repr

/-- A node of the query DAG (enum `QueryNode` in src/querynode.rs):
either a branch with two child handles and a test, or a leaf (`Sink`)
referencing one trapezoid. -/
inductive QueryNode (C : Type) where
  | Branch : QIdx → QIdx → QueryNodeBranch C → QueryNode C
  | Sink : TIdx → QueryNode C
deriving DecidableEq, Repr

namespace QueryNode

/-- `QueryNode::root`: a fresh leaf node referencing the given trapezoid. -/
def root (ti : TIdx) : QueryNode C :=
  .Sink ti

/-- `QueryNode::branch(&mut self, qi_left, qi_right, branch)`: replaces
the receiver with a branch node and returns the original value; embedded
as (new receiver value, previous value). -/
def branch (q : QueryNode C) (qi_left qi_right : QIdx) (b : QueryNodeBranch C) :
    QueryNode C × QueryNode C :=
  (.Branch qi_left qi_right b, q)

/-- `QueryNode::branch_x`: converts the receiver into an X branch via
`branch`, returning the original node and a fresh leaf for the right
trapezoid; embedded as (new receiver value, (previous value, fresh leaf)). -/
def branch_x (q : QueryNode C) (qi_left qi_right : QIdx) (c_min_x c_max_x : C)
    (ti_right : TIdx) : QueryNode C × (QueryNode C × QueryNode C) :=
  let p := q.branch qi_left qi_right (.X c_min_x c_max_x)
  (p.1, (p.2, .Sink ti_right))

/-- `QueryNode::merge_x`: converts the receiver into an X branch via
`branch`, returning only the original node; embedded as (new receiver
value, previous value). -/
def merge_x (q : QueryNode C) (qi_left qi_right : QIdx) (c_min_x c_max_x : C) :
    QueryNode C × QueryNode C :=
  q.branch qi_left qi_right (.X c_min_x c_max_x)

/-- `QueryNode::branch_y`: converts the receiver into a Y branch via
`branch`, returning the original node and a fresh leaf for the up
trapezoid; embedded as (new receiver value, (previous value, fresh leaf)). -/
def branch_y (q : QueryNode C) (qi_left qi_right : QIdx) (c_y : C)
    (ti_up : TIdx) : QueryNode C × (QueryNode C × QueryNode C) :=
  let p := q.branch qi_left qi_right (.Y c_y)
  (p.1, (p.2, .Sink ti_up))

end QueryNode

/-- A query point. Modelled from the spec: the vertex type (not under
src/) exposes its coordinates; coordinates are embedded as integers with
their total order. -/
structure Point where
  x : Int
  y : Int
deriving DecidableEq, Repr

/-- Direction of descent at a branch node of the query DAG. -/
inductive Dir where
  | descendLeft
  | descendRight
deriving DecidableEq, Repr

/-- Modelled from the spec: the Y-branch step of the point-location walk
(the walk is not under src/): the query point's height is compared to the
branch's height; points below descend left, points at-or-above descend
right. -/
def yStep (h : Int) (p : Point) : Dir :=
  if p.y < h then .descendLeft else .descendRight

/-- The state of a trapezoidation build: the trapezoid arena, the
query-node arena, and the root handle of the DAG. Arenas are append-only
lists; in-place mutation of a slot is `List.set`. -/
structure TrapState (C : Type) where
  traps : List Trapezoid
  nodes : List (QueryNode C)
  root : QIdx

/-- Modelled from the spec: the birth state of the structure — exactly
one trapezoid, unbounded on all four sides, and one leaf node
referencing it, at the root. -/
def seedState (C : Type) : TrapState C :=
  { traps := [Trapezoid.all 0], nodes := [QueryNode.root 0], root := 0 }

/-- The query-node indices reachable from the root of the DAG by
descending through branch children. -/
inductive ReachN {C : Type} (s : TrapState C) : QIdx → Prop where
  | root : ReachN s s.root
  | left {q ql qr b} : ReachN s q → s.nodes[q]? = some (.Branch ql qr b) →
      ReachN s ql
  | right {q ql qr b} : ReachN s q → s.nodes[q]? = some (.Branch ql qr b) →
      ReachN s qr

/-- A trapezoid handle is live when some reachable leaf references it. -/
def Live {C : Type} (s : TrapState C) (ti : TIdx) : Prop :=
  ∃ q, ReachN s q ∧ s.nodes[q]? = some (.Sink ti)

/-- Sink consistency: every reachable leaf references a trapezoid whose
`sink` is that leaf's own index. -/
def SinkCons {C : Type} (s : TrapState C) : Prop :=
  ∀ q ti, ReachN s q → s.nodes[q]? = some (.Sink ti) →
    ∃ t, s.traps[ti]? = some t ∧ t.sink = q

/-- The bijection between live trapezoids and reachable DAG leaves:
every live trapezoid's sink slot holds a leaf referencing it back, and
every reachable leaf references a trapezoid whose sink is that leaf's
own index. -/
def SinkBijection {C : Type} (s : TrapState C) : Prop :=
  (∀ ti t, Live s ti → s.traps[ti]? = some t →
    s.nodes[t.sink]? = some (.Sink ti)) ∧
  (∀ q ti, ReachN s q → s.nodes[q]? = some (.Sink ti) →
    ∃ t, s.traps[ti]? = some t ∧ t.sink = q)

/-- Modelled from the spec: one vertical-split insertion step on a
located trapezoid (the insertion orchestrator is not under src/). The
located leaf at `qi` (holding `Sink ti`) is converted with `branch_x`;
the previous leaf value is stored at the fresh slot `ql` and the fresh
right leaf at the fresh slot `qr`; the trapezoid at `ti` is split with
`split_vertical`: the left piece stays at `ti` with sink `ql`, the right
piece is appended at the fresh handle `tr` with sink `qr`. -/
def splitVerticalStep {C : Type} (s : TrapState C) (qi ti : Nat)
    (t : Trapezoid) (si : SegIdx) (cmin cmax : C) : TrapState C :=
  let ql := s.nodes.length
  let qr := s.nodes.length + 1
  let tr := s.traps.length
  let ts := t.split_vertical ql qr si
  let qnew := (QueryNode.Sink ti : QueryNode C).branch_x ql qr cmin cmax tr
  { traps := s.traps.set ti ts.1 ++ [ts.2]
    nodes := s.nodes.set qi qnew.1 ++ [qnew.2.1, qnew.2.2]
    root := s.root }

/-- Modelled from the spec: one horizontal-split insertion step at a
segment endpoint strictly inside a located trapezoid. The located leaf
at `qi` (holding `Sink ti`) is converted with `branch_y`; the previous
leaf value goes to the fresh left (down) slot `ql`, the fresh up leaf to
the fresh slot `qr`; the trapezoid at `ti` is split with
`split_horizontal`: the down piece stays at `ti` with sink `ql`, the up
piece is appended at the fresh handle `tu` with sink `qr`. -/
def splitHorizontalStep {C : Type} (s : TrapState C) (qi ti : Nat)
    (t : Trapezoid) (ni : NexusIdx) (c : C) : TrapState C :=
  let ql := s.nodes.length
  let qr := s.nodes.length + 1
  let tu := s.traps.length
  let ts := t.split_horizontal ql qr ni
  let qnew := (QueryNode.Sink ti : QueryNode C).branch_y ql qr c tu
  { traps := s.traps.set ti ts.1 ++ [ts.2]
    nodes := s.nodes.set qi qnew.1 ++ [qnew.2.1, qnew.2.2]
    root := s.root }

/-- Modelled from the spec: one merge insertion step. The located leaf
at `qi` (holding `Sink ti`) is converted with `merge_x` into a branch
whose right child is the already-existing surviving leaf `qsurv` — no
fresh leaf is manufactured; the previous leaf value is stored at the
fresh slot `ql`; the trapezoid at `ti` keeps only its left piece
(`set_right` with the segment, `set_sink` to `ql`), its right portion
coalescing into the surviving trapezoid. -/
def mergeStep {C : Type} (s : TrapState C) (qi ti : Nat) (t : Trapezoid)
    (si : SegIdx) (cmin cmax : C) (qsurv : QIdx) : TrapState C :=
  let ql := s.nodes.length
  let qnew := (QueryNode.Sink ti : QueryNode C).merge_x ql qsurv cmin cmax
  { traps := s.traps.set ti ((t.set_right si).set_sink ql)
    nodes := s.nodes.set qi qnew.1 ++ [qnew.2]
    root := s.root }

/-- Overwrite one trapezoid slot in place. -/
def setTrap {C : Type} (s : TrapState C) (ti : Nat) (tv : Trapezoid) :
    TrapState C :=
  { s with traps := s.traps.set ti tv }

/-- Modelled from the spec: the composite mutations the insertion
algorithm performs on the pair of arenas — vertical split, horizontal
split, merge of stacked trapezoids, and a surviving trapezoid absorbing
a new neighboring bound via a single-field setter. -/
inductive Step {C : Type} : TrapState C → TrapState C → Prop where
  | splitVertical {s : TrapState C} {qi ti : Nat} {t : Trapezoid}
      {si : SegIdx} {cmin cmax : C} :
      ReachN s qi → s.nodes[qi]? = some (.Sink ti) →
      s.traps[ti]? = some t →
      Step s (splitVerticalStep s qi ti t si cmin cmax)
  | splitHorizontal {s : TrapState C} {qi ti : Nat} {t : Trapezoid}
      {ni : NexusIdx} {c : C} :
      ReachN s qi → s.nodes[qi]? = some (.Sink ti) →
      s.traps[ti]? = some t →
      Step s (splitHorizontalStep s qi ti t ni c)
  | merge {s : TrapState C} {qi ti : Nat} {t : Trapezoid} {si : SegIdx}
      {cmin cmax : C} {qsurv : QIdx} {tsurv : TIdx} :
      ReachN s qi → s.nodes[qi]? = some (.Sink ti) →
      s.traps[ti]? = some t →
      ReachN s qsurv → s.nodes[qsurv]? = some (.Sink tsurv) →
      Step s (mergeStep s qi ti t si cmin cmax qsurv)
  | absorbLeft {s : TrapState C} {ti : Nat} {t : Trapezoid} {si : SegIdx} :
      s.traps[ti]? = some t → Step s (setTrap s ti (t.set_left si))
  | absorbRight {s : TrapState C} {ti : Nat} {t : Trapezoid} {si : SegIdx} :
      s.traps[ti]? = some t → Step s (setTrap s ti (t.set_right si))
  | absorbDown {s : TrapState C} {ti : Nat} {t : Trapezoid} {ni : NexusIdx} :
      s.traps[ti]? = some t → Step s (setTrap s ti (t.set_down ni))

/-- The states reachable from the seed state by insertion steps. -/
inductive ReachableState (C : Type) : TrapState C → Prop where
  | seed : ReachableState C (seedState C)
  | step {s s' : TrapState C} : ReachableState C s → Step s s' →
      ReachableState C s'

theorem lt_length_of_getElem?_eq_some {α : Type} {l : List α} {i : Nat} {a : α}
    (h : l[i]? = some a) : i < l.length := by
  by_contra hn
  rw [List.getElem?_eq_none (Nat.le_of_not_lt hn)] at h
  exact Option.noConfusion h

theorem getElem?_set_append_of_lt {α : Type} {l m : List α} {x : α} {i j : Nat}
    (hj : j < l.length) (hne : j ≠ i) : (l.set i x ++ m)[j]? = l[j]? := by
  rw [List.getElem?_append_left (by simpa using hj)]
  exact List.getElem?_set_ne (Ne.symm hne)

theorem getElem?_set_append_self {α : Type} {l m : List α} {x : α} {i : Nat}
    (hi : i < l.length) : (l.set i x ++ m)[i]? = some x := by
  rw [List.getElem?_append_left (by simpa using hi)]
  exact List.getElem?_set_eq_of_lt x hi

theorem getElem?_set_append_of_ge {α : Type} {l m : List α} {x : α} {i j : Nat}
    (hj : l.length ≤ j) : (l.set i x ++ m)[j]? = m[j - l.length]? := by
  rw [List.getElem?_append_right (by simpa using hj)]
  simp

theorem sink_pair_getElem? {C : Type} {a b : TIdx} {k : Nat} {v : QueryNode C}
    (h : ([QueryNode.Sink a, QueryNode.Sink b] : List (QueryNode C))[k]? = some v) :
    (k = 0 ∧ v = .Sink a) ∨ (k = 1 ∧ v = .Sink b) := by
  match k with
  | 0 =>
    refine Or.inl ⟨rfl, ?_⟩
    simpa using h.symm
  | 1 =>
    refine Or.inr ⟨rfl, ?_⟩
    simpa using h.symm
  | k + 2 => simp at h

theorem sink_single_getElem? {C : Type} {a : TIdx} {k : Nat} {v : QueryNode C}
    (h : ([QueryNode.Sink a] : List (QueryNode C))[k]? = some v) :
    k = 0 ∧ v = .Sink a := by
  match k with
  | 0 =>
    refine ⟨rfl, ?_⟩
    simpa using h.symm
  | k + 1 => simp at h

theorem splitVerticalStep_nodes {C : Type} (s : TrapState C) (qi ti : Nat)
    (t : Trapezoid) (si : SegIdx) (cmin cmax : C) :
    (splitVerticalStep s qi ti t si cmin cmax).nodes =
      s.nodes.set qi
          (.Branch s.nodes.length (s.nodes.length + 1) (.X cmin cmax)) ++
        [.Sink ti, .Sink s.traps.length] := rfl

theorem splitVerticalStep_traps {C : Type} (s : TrapState C) (qi ti : Nat)
    (t : Trapezoid) (si : SegIdx) (cmin cmax : C) :
    (splitVerticalStep s qi ti t si cmin cmax).traps =
      s.traps.set ti { t with right := some si, sink := s.nodes.length } ++
        [{ left := some si, right := t.right, down := t.down, up := t.up,
           sink := s.nodes.length + 1 }] := rfl

theorem splitVerticalStep_root {C : Type} (s : TrapState C) (qi ti : Nat)
    (t : Trapezoid) (si : SegIdx) (cmin cmax : C) :
    (splitVerticalStep s qi ti t si cmin cmax).root = s.root := rfl

theorem splitHorizontalStep_nodes {C : Type} (s : TrapState C) (qi ti : Nat)
    (t : Trapezoid) (ni : NexusIdx) (c : C) :
    (splitHorizontalStep s qi ti t ni c).nodes =
      s.nodes.set qi
          (.Branch s.nodes.length (s.nodes.length + 1) (.Y c)) ++
        [.Sink ti, .Sink s.traps.length] := rfl

theorem splitHorizontalStep_traps {C : Type} (s : TrapState C) (qi ti : Nat)
    (t : Trapezoid) (ni : NexusIdx) (c : C) :
    (splitHorizontalStep s qi ti t ni c).traps =
      s.traps.set ti { t with up := some ni, sink := s.nodes.length } ++
        [{ left := t.left, right := t.right, down := some ni, up := t.up,
           sink := s.nodes.length + 1 }] := rfl

theorem splitHorizontalStep_root {C : Type} (s : TrapState C) (qi ti : Nat)
    (t : Trapezoid) (ni : NexusIdx) (c : C) :
    (splitHorizontalStep s qi ti t ni c).root = s.root := rfl

theorem mergeStep_nodes {C : Type} (s : TrapState C) (qi ti : Nat)
    (t : Trapezoid) (si : SegIdx) (cmin cmax : C) (qsurv : QIdx) :
    (mergeStep s qi ti t si cmin cmax qsurv).nodes =
      s.nodes.set qi (.Branch s.nodes.length qsurv (.X cmin cmax)) ++
        [.Sink ti] := rfl

theorem mergeStep_traps {C : Type} (s : TrapState C) (qi ti : Nat)
    (t : Trapezoid) (si : SegIdx) (cmin cmax : C) (qsurv : QIdx) :
    (mergeStep s qi ti t si cmin cmax qsurv).traps =
      s.traps.set ti { t with right := some si, sink := s.nodes.length } := rfl

theorem mergeStep_root {C : Type} (s : TrapState C) (qi ti : Nat)
    (t : Trapezoid) (si : SegIdx) (cmin cmax : C) (qsurv : QIdx) :
    (mergeStep s qi ti t si cmin cmax qsurv).root = s.root := rfl

theorem reachN_setTrap {C : Type} {s : TrapState C} {ti : Nat}
    {tv : Trapezoid} {q : QIdx} :
    ReachN (setTrap s ti tv) q ↔ ReachN s q := by
  constructor
  · intro h
    induction h with
    | root => exact ReachN.root
    | left hr hb ih => exact ReachN.left ih hb
    | right hr hb ih => exact ReachN.right ih hb
  · intro h
    induction h with
    | root => exact ReachN.root
    | left hr hb ih => exact ReachN.left ih hb
    | right hr hb ih => exact ReachN.right ih hb

theorem reachN_split_shape {C : Type} {s : TrapState C} {qi : Nat}
    {b0 : QueryNodeBranch C} {a1 a2 : TIdx} {s' : TrapState C}
    (hnodes : s'.nodes = s.nodes.set qi
        (.Branch s.nodes.length (s.nodes.length + 1) b0) ++ [.Sink a1, .Sink a2])
    (hroot : s'.root = s.root) :
    ∀ q', ReachN s' q' →
      ReachN s q' ∨ q' = s.nodes.length ∨ q' = s.nodes.length + 1 := by
  intro q' h
  induction h with
  | root =>
      rw [hroot]
      exact Or.inl ReachN.root
  | left hr hb ih =>
      rename_i q ql qr b
      rw [hnodes] at hb
      rcases ih with hreach | h0 | h1
      · by_cases hqi : q = qi
        · subst hqi
          by_cases hlt : q < s.nodes.length
          · rw [getElem?_set_append_self hlt] at hb
            have hinj := Option.some.inj hb
            injection hinj with e1 e2 e3
            exact Or.inr (Or.inl e1.symm)
          · rw [getElem?_set_append_of_ge (Nat.le_of_not_lt hlt)] at hb
            rcases sink_pair_getElem? hb with ⟨_, hv⟩ | ⟨_, hv⟩ <;>
              exact absurd hv (by simp)
        · by_cases hlt : q < s.nodes.length
          · rw [getElem?_set_append_of_lt hlt hqi] at hb
            exact Or.inl (ReachN.left hreach hb)
          · rw [getElem?_set_append_of_ge (Nat.le_of_not_lt hlt)] at hb
            rcases sink_pair_getElem? hb with ⟨_, hv⟩ | ⟨_, hv⟩ <;>
              exact absurd hv (by simp)
      · rw [h0, getElem?_set_append_of_ge (le_refl _), Nat.sub_self] at hb
        simp at hb
      · have e1 : s.nodes.length + 1 - s.nodes.length = 1 := by omega
        rw [h1, getElem?_set_append_of_ge (by omega), e1] at hb
        simp at hb
  | right hr hb ih =>
      rename_i q ql qr b
      rw [hnodes] at hb
      rcases ih with hreach | h0 | h1
      · by_cases hqi : q = qi
        · subst hqi
          by_cases hlt : q < s.nodes.length
          · rw [getElem?_set_append_self hlt] at hb
            have hinj := Option.some.inj hb
            injection hinj with e1 e2 e3
            exact Or.inr (Or.inr e2.symm)
          · rw [getElem?_set_append_of_ge (Nat.le_of_not_lt hlt)] at hb
            rcases sink_pair_getElem? hb with ⟨_, hv⟩ | ⟨_, hv⟩ <;>
              exact absurd hv (by simp)
        · by_cases hlt : q < s.nodes.length
          · rw [getElem?_set_append_of_lt hlt hqi] at hb
            exact Or.inl (ReachN.right hreach hb)
          · rw [getElem?_set_append_of_ge (Nat.le_of_not_lt hlt)] at hb
            rcases sink_pair_getElem? hb with ⟨_, hv⟩ | ⟨_, hv⟩ <;>
              exact absurd hv (by simp)
      · rw [h0, getElem?_set_append_of_ge (le_refl _), Nat.sub_self] at hb
        simp at hb
      · have e1 : s.nodes.length + 1 - s.nodes.length = 1 := by omega
        rw [h1, getElem?_set_append_of_ge (by omega), e1] at hb
        simp at hb

theorem reachN_merge_shape {C : Type} {s : TrapState C} {qi : Nat}
    {b0 : QueryNodeBranch C} {a1 : TIdx} {qsurv : QIdx} {s' : TrapState C}
    (hsurv : ReachN s qsurv)
    (hnodes : s'.nodes = s.nodes.set qi
        (.Branch s.nodes.length qsurv b0) ++ [.Sink a1])
    (hroot : s'.root = s.root) :
    ∀ q', ReachN s' q' → ReachN s q' ∨ q' = s.nodes.length := by
  intro q' h
  induction h with
  | root =>
      rw [hroot]
      exact Or.inl ReachN.root
  | left hr hb ih =>
      rename_i q ql qr b
      rw [hnodes] at hb
      rcases ih with hreach | h0
      · by_cases hqi : q = qi
        · subst hqi
          by_cases hlt : q < s.nodes.length
          · rw [getElem?_set_append_self hlt] at hb
            have hinj := Option.some.inj hb
            injection hinj with e1 e2 e3
            exact Or.inr e1.symm
          · rw [getElem?_set_append_of_ge (Nat.le_of_not_lt hlt)] at hb
            obtain ⟨_, hv⟩ := sink_single_getElem? hb
            exact absurd hv (by simp)
        · by_cases hlt : q < s.nodes.length
          · rw [getElem?_set_append_of_lt hlt hqi] at hb
            exact Or.inl (ReachN.left hreach hb)
          · rw [getElem?_set_append_of_ge (Nat.le_of_not_lt hlt)] at hb
            obtain ⟨_, hv⟩ := sink_single_getElem? hb
            exact absurd hv (by simp)
      · rw [h0, getElem?_set_append_of_ge (le_refl _), Nat.sub_self] at hb
        simp at hb
  | right hr hb ih =>
      rename_i q ql qr b
      rw [hnodes] at hb
      rcases ih with hreach | h0
      · by_cases hqi : q = qi
        · subst hqi
          by_cases hlt : q < s.nodes.length
          · rw [getElem?_set_append_self hlt] at hb
            have hinj := Option.some.inj hb
            injection hinj with e1 e2 e3
            rw [← e2]
            exact Or.inl hsurv
          · rw [getElem?_set_append_of_ge (Nat.le_of_not_lt hlt)] at hb
            obtain ⟨_, hv⟩ := sink_single_getElem? hb
            exact absurd hv (by simp)
        · by_cases hlt : q < s.nodes.length
          · rw [getElem?_set_append_of_lt hlt hqi] at hb
            exact Or.inl (ReachN.right hreach hb)
          · rw [getElem?_set_append_of_ge (Nat.le_of_not_lt hlt)] at hb
            obtain ⟨_, hv⟩ := sink_single_getElem? hb
            exact absurd hv (by simp)
      · rw [h0, getElem?_set_append_of_ge (le_refl _), Nat.sub_self] at hb
        simp at hb

theorem sinkCons_seedState (C : Type) : SinkCons (seedState C) := by
  intro q ti hr hb
  obtain ⟨hq0, hv⟩ := sink_single_getElem? (a := 0) hb
  subst hq0
  have hti : ti = 0 := QueryNode.Sink.inj hv
  subst hti
  exact ⟨Trapezoid.all 0, rfl, rfl⟩

theorem sinkCons_splitVerticalStep {C : Type} {s : TrapState C} {qi ti : Nat}
    {t : Trapezoid} {si : SegIdx} {cmin cmax : C}
    (hq : ReachN s qi) (hnode : s.nodes[qi]? = some (.Sink ti))
    (htrap : s.traps[ti]? = some t) (hcons : SinkCons s) :
    SinkCons (splitVerticalStep s qi ti t si cmin cmax) := by
  have hti_lt : ti < s.traps.length := lt_length_of_getElem?_eq_some htrap
  have htsink : t.sink = qi := by
    obtain ⟨t0, ht0, hs0⟩ := hcons qi ti hq hnode
    rw [htrap] at ht0
    rw [Option.some.inj ht0]
    exact hs0
  intro q' ti' hr' hb'
  rw [splitVerticalStep_nodes] at hb'
  by_cases hlt : q' < s.nodes.length
  · have hne : q' ≠ qi := by
      intro he
      subst he
      rw [getElem?_set_append_self hlt] at hb'
      exact absurd (Option.some.inj hb') (by simp)
    rw [getElem?_set_append_of_lt hlt hne] at hb'
    have hreach : ReachN s q' := by
      rcases reachN_split_shape (splitVerticalStep_nodes s qi ti t si cmin cmax)
        (splitVerticalStep_root s qi ti t si cmin cmax) q' hr' with h | h | h
      · exact h
      · exact absurd (h ▸ hlt) (Nat.lt_irrefl s.nodes.length)
      · rw [h] at hlt
        exact absurd (Nat.le_of_lt hlt) (Nat.not_succ_le_self s.nodes.length)
    obtain ⟨t0, ht0, hs0⟩ := hcons q' ti' hreach hb'
    have hne_ti : ti' ≠ ti := by
      intro he
      subst he
      rw [htrap] at ht0
      rw [Option.some.inj ht0] at htsink
      rw [hs0] at htsink
      exact hne htsink
    have hti'_lt : ti' < s.traps.length := lt_length_of_getElem?_eq_some ht0
    refine ⟨t0, ?_, hs0⟩
    rw [splitVerticalStep_traps, getElem?_set_append_of_lt hti'_lt hne_ti]
    exact ht0
  · rw [getElem?_set_append_of_ge (Nat.le_of_not_lt hlt)] at hb'
    rcases sink_pair_getElem? hb' with ⟨hk, hv⟩ | ⟨hk, hv⟩
    · have hq' : q' = s.nodes.length :=
        Nat.le_antisymm (Nat.sub_eq_zero_iff_le.mp hk) (Nat.le_of_not_lt hlt)
      have hti' : ti' = ti := QueryNode.Sink.inj hv
      subst hti'
      refine ⟨{ t with right := some si, sink := s.nodes.length }, ?_, hq'.symm⟩
      rw [splitVerticalStep_traps, getElem?_set_append_self hti_lt]
    · have hq' : q' = s.nodes.length + 1 := by
        have h1 := Nat.eq_add_of_sub_eq (Nat.le_of_not_lt hlt) hk
        rw [h1, Nat.add_comm]
      have hti' : ti' = s.traps.length := QueryNode.Sink.inj hv
      subst hti'
      refine ⟨{ left := some si, right := t.right, down := t.down, up := t.up,
                sink := s.nodes.length + 1 }, ?_, hq'.symm⟩
      rw [splitVerticalStep_traps, getElem?_set_append_of_ge (le_refl _),
        Nat.sub_self]
      rfl

theorem sinkCons_splitHorizontalStep {C : Type} {s : TrapState C} {qi ti : Nat}
    {t : Trapezoid} {ni : NexusIdx} {c : C}
    (hq : ReachN s qi) (hnode : s.nodes[qi]? = some (.Sink ti))
    (htrap : s.traps[ti]? = some t) (hcons : SinkCons s) :
    SinkCons (splitHorizontalStep s qi ti t ni c) := by
  have hti_lt : ti < s.traps.length := lt_length_of_getElem?_eq_some htrap
  have htsink : t.sink = qi := by
    obtain ⟨t0, ht0, hs0⟩ := hcons qi ti hq hnode
    rw [htrap] at ht0
    rw [Option.some.inj ht0]
    exact hs0
  intro q' ti' hr' hb'
  rw [splitHorizontalStep_nodes] at hb'
  by_cases hlt : q' < s.nodes.length
  · have hne : q' ≠ qi := by
      intro he
      subst he
      rw [getElem?_set_append_self hlt] at hb'
      exact absurd (Option.some.inj hb') (by simp)
    rw [getElem?_set_append_of_lt hlt hne] at hb'
    have hreach : ReachN s q' := by
      rcases reachN_split_shape (splitHorizontalStep_nodes s qi ti t ni c)
        (splitHorizontalStep_root s qi ti t ni c) q' hr' with h | h | h
      · exact h
      · exact absurd (h ▸ hlt) (Nat.lt_irrefl s.nodes.length)
      · rw [h] at hlt
        exact absurd (Nat.le_of_lt hlt) (Nat.not_succ_le_self s.nodes.length)
    obtain ⟨t0, ht0, hs0⟩ := hcons q' ti' hreach hb'
    have hne_ti : ti' ≠ ti := by
      intro he
      subst he
      rw [htrap] at ht0
      rw [Option.some.inj ht0] at htsink
      rw [hs0] at htsink
      exact hne htsink
    have hti'_lt : ti' < s.traps.length := lt_length_of_getElem?_eq_some ht0
    refine ⟨t0, ?_, hs0⟩
    rw [splitHorizontalStep_traps, getElem?_set_append_of_lt hti'_lt hne_ti]
    exact ht0
  · rw [getElem?_set_append_of_ge (Nat.le_of_not_lt hlt)] at hb'
    rcases sink_pair_getElem? hb' with ⟨hk, hv⟩ | ⟨hk, hv⟩
    · have hq' : q' = s.nodes.length :=
        Nat.le_antisymm (Nat.sub_eq_zero_iff_le.mp hk) (Nat.le_of_not_lt hlt)
      have hti' : ti' = ti := QueryNode.Sink.inj hv
      subst hti'
      refine ⟨{ t with up := some ni, sink := s.nodes.length }, ?_, hq'.symm⟩
      rw [splitHorizontalStep_traps, getElem?_set_append_self hti_lt]
    · have hq' : q' = s.nodes.length + 1 := by
        have h1 := Nat.eq_add_of_sub_eq (Nat.le_of_not_lt hlt) hk
        rw [h1, Nat.add_comm]
      have hti' : ti' = s.traps.length := QueryNode.Sink.inj hv
      subst hti'
      refine ⟨{ left := t.left, right := t.right, down := some ni, up := t.up,
                sink := s.nodes.length + 1 }, ?_, hq'.symm⟩
      rw [splitHorizontalStep_traps, getElem?_set_append_of_ge (le_refl _),
        Nat.sub_self]
      rfl

theorem sinkCons_mergeStep {C : Type} {s : TrapState C} {qi ti : Nat}
    {t : Trapezoid} {si : SegIdx} {cmin cmax : C} {qsurv : QIdx}
    (hq : ReachN s qi) (hnode : s.nodes[qi]? = some (.Sink ti))
    (htrap : s.traps[ti]? = some t) (hsurv : ReachN s qsurv)
    (hcons : SinkCons s) :
    SinkCons (mergeStep s qi ti t si cmin cmax qsurv) := by
  have hti_lt : ti < s.traps.length := lt_length_of_getElem?_eq_some htrap
  have htsink : t.sink = qi := by
    obtain ⟨t0, ht0, hs0⟩ := hcons qi ti hq hnode
    rw [htrap] at ht0
    rw [Option.some.inj ht0]
    exact hs0
  intro q' ti' hr' hb'
  rw [mergeStep_nodes] at hb'
  by_cases hlt : q' < s.nodes.length
  · have hne : q' ≠ qi := by
      intro he
      subst he
      rw [getElem?_set_append_self hlt] at hb'
      exact absurd (Option.some.inj hb') (by simp)
    rw [getElem?_set_append_of_lt hlt hne] at hb'
    have hreach : ReachN s q' := by
      rcases reachN_merge_shape hsurv (mergeStep_nodes s qi ti t si cmin cmax qsurv)
        (mergeStep_root s qi ti t si cmin cmax qsurv) q' hr' with h | h
      · exact h
      · exact absurd (h ▸ hlt) (Nat.lt_irrefl s.nodes.length)
    obtain ⟨t0, ht0, hs0⟩ := hcons q' ti' hreach hb'
    have hne_ti : ti' ≠ ti := by
      intro he
      subst he
      rw [htrap] at ht0
      rw [Option.some.inj ht0] at htsink
      rw [hs0] at htsink
      exact hne htsink
    refine ⟨t0, ?_, hs0⟩
    rw [mergeStep_traps]
    rw [List.getElem?_set_ne (Ne.symm hne_ti)]
    exact ht0
  · rw [getElem?_set_append_of_ge (Nat.le_of_not_lt hlt)] at hb'
    obtain ⟨hk, hv⟩ := sink_single_getElem? hb'
    have hq' : q' = s.nodes.length :=
      Nat.le_antisymm (Nat.sub_eq_zero_iff_le.mp hk) (Nat.le_of_not_lt hlt)
    have hti' : ti' = ti := QueryNode.Sink.inj hv
    subst hti'
    refine ⟨{ t with right := some si, sink := s.nodes.length }, ?_, hq'.symm⟩
    rw [mergeStep_traps]
    exact List.getElem?_set_eq_of_lt _ hti_lt

theorem sinkCons_setTrap {C : Type} {s : TrapState C} {ti : Nat}
    {t tv : Trapezoid} (htrap : s.traps[ti]? = some t)
    (hsink : tv.sink = t.sink) (hcons : SinkCons s) :
    SinkCons (setTrap s ti tv) := by
  have hti_lt : ti < s.traps.length := lt_length_of_getElem?_eq_some htrap
  intro q' ti' hr' hb'
  have hr : ReachN s q' := reachN_setTrap.mp hr'
  have hb : s.nodes[q']? = some (.Sink ti') := hb'
  obtain ⟨t0, ht0, hs0⟩ := hcons q' ti' hr hb
  by_cases he : ti' = ti
  · subst he
    refine ⟨tv, ?_, ?_⟩
    · show (s.traps.set ti' tv)[ti']? = some tv
      exact List.getElem?_set_eq_of_lt tv hti_lt
    · rw [hsink]
      rw [htrap] at ht0
      rw [Option.some.inj ht0]
      exact hs0
  · refine ⟨t0, ?_, hs0⟩
    show (s.traps.set ti tv)[ti']? = some t0
    rw [List.getElem?_set_ne (Ne.symm he)]
    exact ht0

theorem sinkCons_of_reachableState {C : Type} (s : TrapState C)
    (h : ReachableState C s) : SinkCons s := by
  induction h with
  | seed => exact sinkCons_seedState C
  | step hprev hstep ih =>
      cases hstep with
      | splitVertical hq hnode htrap =>
          exact sinkCons_splitVerticalStep hq hnode htrap ih
      | splitHorizontal hq hnode htrap =>
          exact sinkCons_splitHorizontalStep hq hnode htrap ih
      | merge hq hnode htrap hsurv hsnode =>
          exact sinkCons_mergeStep hq hnode htrap hsurv ih
      | absorbLeft htrap => exact sinkCons_setTrap htrap rfl ih
      | absorbRight htrap => exact sinkCons_setTrap htrap rfl ih
      | absorbDown htrap => exact sinkCons_setTrap htrap rfl ih

/-- C1: for every trapezoid `t`, `split_vertical ql qr s` turns the
receiver into the left piece — `right` becomes `some s`, `sink` becomes
`ql`, and `left`, `down`, `up` are unchanged — and returns the right
piece, whose `left` is `some s`, whose `right`, `down`, `up` equal the
receiver's pre-call values, and whose `sink` is `qr`. -/
theorem split_vertical_left_right_pieces (t : Trapezoid) (ql qr : QIdx) (s : SegIdx) :
    (t.split_vertical ql qr s).1.right = some s ∧
    (t.split_vertical ql qr s).1.sink = ql ∧
    (t.split_vertical ql qr s).1.left = t.left ∧
    (t.split_vertical ql qr s).1.down = t.down ∧
    (t.split_vertical ql qr s).1.up = t.up ∧
    (t.split_vertical ql qr s).2.left = some s ∧
    (t.split_vertical ql qr s).2.right = t.right ∧
    (t.split_vertical ql qr s).2.down = t.down ∧
    (t.split_vertical ql qr s).2.up = t.up ∧
    (t.split_vertical ql qr s).2.sink = qr :=
  ⟨rfl, rfl, rfl, rfl, rfl, rfl, rfl, rfl, rfl, rfl⟩

/-- C2: for every trapezoid `t`, `split_horizontal qd qu n` turns the
receiver into the down piece — `up` becomes `some n`, `sink` becomes
`qd`, and `left`, `right`, `down` are unchanged — and returns the up
piece, whose `down` is `some n`, whose `left`, `right`, `up` equal the
receiver's pre-call values, and whose `sink` is `qu`. -/
theorem split_horizontal_down_up_pieces (t : Trapezoid) (qd qu : QIdx) (n : NexusIdx) :
    (t.split_horizontal qd qu n).1.up = some n ∧
    (t.split_horizontal qd qu n).1.sink = qd ∧
    (t.split_horizontal qd qu n).1.left = t.left ∧
    (t.split_horizontal qd qu n).1.right = t.right ∧
    (t.split_horizontal qd qu n).1.down = t.down ∧
    (t.split_horizontal qd qu n).2.down = some n ∧
    (t.split_horizontal qd qu n).2.left = t.left ∧
    (t.split_horizontal qd qu n).2.right = t.right ∧
    (t.split_horizontal qd qu n).2.up = t.up ∧
    (t.split_horizontal qd qu n).2.sink = qu :=
  ⟨rfl, rfl, rfl, rfl, rfl, rfl, rfl, rfl, rfl, rfl⟩

/-- C3: `branch_x ql qr c_min c_max ti` replaces the receiver's slot value
with `Branch ql qr (X c_min c_max)` and returns the pair (previous value
of the receiver, `Sink ti`); `branch_y ql qr c ti` symmetrically installs
`Branch ql qr (Y c)` and returns (previous value, `Sink ti`). The
replacement happens at the receiver's own arena slot (the embedding
returns the new value for that same slot), so back-references to the
index are preserved. -/
theorem branch_x_branch_y_replace_and_return {C : Type} (q : QueryNode C)
    (ql qr : QIdx) (cmin cmax c : C) (ti : TIdx) :
    q.branch_x ql qr cmin cmax ti =
      (.Branch ql qr (.X cmin cmax), (q, .Sink ti)) ∧
    q.branch_y ql qr c ti =
      (.Branch ql qr (.Y c), (q, .Sink ti)) :=
  ⟨rfl, rfl⟩

/-- C4: `merge_x ql qr c_min c_max` replaces the receiver's slot value
with `Branch ql qr (X c_min c_max)` and returns exactly the previous
value of the receiver and nothing else: its result carries no fresh
`Sink` node, unlike `branch_x`. -/
theorem merge_x_replace_and_return_no_fresh_leaf {C : Type} (q : QueryNode C)
    (ql qr : QIdx) (cmin cmax : C) :
    q.merge_x ql qr cmin cmax = (.Branch ql qr (.X cmin cmax), q) :=
  rfl

/-- C7: the seed state is the whole plane: `Trapezoid.all q` has all four
bounds `none` (unbounded on every side) and sink `q`, and
`QueryNode.root t` is a leaf (`Sink`) referencing exactly `t`. -/
theorem all_and_root_seed_values {C : Type} (q : QIdx) (t : TIdx) :
    (Trapezoid.all q).left = none ∧
    (Trapezoid.all q).right = none ∧
    (Trapezoid.all q).down = none ∧
    (Trapezoid.all q).up = none ∧
    (Trapezoid.all q).sink = q ∧
    (QueryNode.root t : QueryNode C) = .Sink t :=
  ⟨rfl, rfl, rfl, rfl, rfl, rfl⟩

/-- C8: each of `set_left`, `set_right`, `set_down`, `set_sink` mutates
exactly its one named field (the bound to `some` of the given handle, or
the sink to the given handle) and leaves every other field unchanged. -/
theorem setters_touch_exactly_one_field (t : Trapezoid) (si : SegIdx)
    (ni : NexusIdx) (qi : QIdx) :
    (t.set_left si).left = some si ∧
    (t.set_left si).right = t.right ∧
    (t.set_left si).down = t.down ∧
    (t.set_left si).up = t.up ∧
    (t.set_left si).sink = t.sink ∧
    (t.set_right si).right = some si ∧
    (t.set_right si).left = t.left ∧
    (t.set_right si).down = t.down ∧
    (t.set_right si).up = t.up ∧
    (t.set_right si).sink = t.sink ∧
    (t.set_down ni).down = some ni ∧
    (t.set_down ni).left = t.left ∧
    (t.set_down ni).right = t.right ∧
    (t.set_down ni).up = t.up ∧
    (t.set_down ni).sink = t.sink ∧
    (t.set_sink qi).sink = qi ∧
    (t.set_sink qi).left = t.left ∧
    (t.set_sink qi).right = t.right ∧
    (t.set_sink qi).down = t.down ∧
    (t.set_sink qi).up = t.up :=
  ⟨rfl, rfl, rfl, rfl, rfl, rfl, rfl, rfl, rfl, rfl,
   rfl, rfl, rfl, rfl, rfl, rfl, rfl, rfl, rfl, rfl⟩

/-- C9: boundedness is monotone. For every mutating trapezoid operation
(`split_vertical` and `split_horizontal` on the receiver and on the
returned piece, and `set_left`, `set_right`, `set_down`, `set_sink`), no
bound field goes from `some` back to `none`: `isSome` of each of the four
bounds is monotone from input to output. (`Trapezoid.all` takes no input
trapezoid, so it changes no existing field.) -/
theorem bounds_monotone (t : Trapezoid) (ql qr qd qu qi : QIdx)
    (si : SegIdx) (ni : NexusIdx) :
    (t.left.isSome ≤ (t.split_vertical ql qr si).1.left.isSome ∧
     t.right.isSome ≤ (t.split_vertical ql qr si).1.right.isSome ∧
     t.down.isSome ≤ (t.split_vertical ql qr si).1.down.isSome ∧
     t.up.isSome ≤ (t.split_vertical ql qr si).1.up.isSome) ∧
    (t.left.isSome ≤ (t.split_vertical ql qr si).2.left.isSome ∧
     t.right.isSome ≤ (t.split_vertical ql qr si).2.right.isSome ∧
     t.down.isSome ≤ (t.split_vertical ql qr si).2.down.isSome ∧
     t.up.isSome ≤ (t.split_vertical ql qr si).2.up.isSome) ∧
    (t.left.isSome ≤ (t.split_horizontal qd qu ni).1.left.isSome ∧
     t.right.isSome ≤ (t.split_horizontal qd qu ni).1.right.isSome ∧
     t.down.isSome ≤ (t.split_horizontal qd qu ni).1.down.isSome ∧
     t.up.isSome ≤ (t.split_horizontal qd qu ni).1.up.isSome) ∧
    (t.left.isSome ≤ (t.split_horizontal qd qu ni).2.left.isSome ∧
     t.right.isSome ≤ (t.split_horizontal qd qu ni).2.right.isSome ∧
     t.down.isSome ≤ (t.split_horizontal qd qu ni).2.down.isSome ∧
     t.up.isSome ≤ (t.split_horizontal qd qu ni).2.up.isSome) ∧
    (t.left.isSome ≤ (t.set_left si).left.isSome ∧
     t.right.isSome ≤ (t.set_left si).right.isSome ∧
     t.down.isSome ≤ (t.set_left si).down.isSome ∧
     t.up.isSome ≤ (t.set_left si).up.isSome) ∧
    (t.left.isSome ≤ (t.set_right si).left.isSome ∧
     t.right.isSome ≤ (t.set_right si).right.isSome ∧
     t.down.isSome ≤ (t.set_right si).down.isSome ∧
     t.up.isSome ≤ (t.set_right si).up.isSome) ∧
    (t.left.isSome ≤ (t.set_down ni).left.isSome ∧
     t.right.isSome ≤ (t.set_down ni).right.isSome ∧
     t.down.isSome ≤ (t.set_down ni).down.isSome ∧
     t.up.isSome ≤ (t.set_down ni).up.isSome) ∧
    (t.left.isSome ≤ (t.set_sink qi).left.isSome ∧
     t.right.isSome ≤ (t.set_sink qi).right.isSome ∧
     t.down.isSome ≤ (t.set_sink qi).down.isSome ∧
     t.up.isSome ≤ (t.set_sink qi).up.isSome) := by
  refine ⟨⟨le_refl _, ?_, le_refl _, le_refl _⟩,
    ⟨?_, le_refl _, le_refl _, le_refl _⟩,
    ⟨le_refl _, le_refl _, le_refl _, ?_⟩,
    ⟨le_refl _, le_refl _, ?_, le_refl _⟩,
    ⟨?_, le_refl _, le_refl _, le_refl _⟩,
    ⟨le_refl _, ?_, le_refl _, le_refl _⟩,
    ⟨le_refl _, le_refl _, ?_, le_refl _⟩,
    ⟨le_refl _, le_refl _, le_refl _, le_refl _⟩⟩ <;>
  exact Bool.le_true _

/-- C10: `branch_x`, `branch_y` and `merge_x` are total on every receiver
variant: even when the receiver is already a `Branch`, they overwrite it
unconditionally with the new branch node, and the previous value they
return equals the receiver's exact pre-call value, independent of the
child handles and test supplied. -/
theorem branch_ops_total_on_any_variant {C : Type} (a b : QIdx)
    (br : QueryNodeBranch C) (t0 : TIdx) (ql qr : QIdx) (cmin cmax c : C)
    (ti : TIdx) :
    ((QueryNode.Branch a b br).branch_x ql qr cmin cmax ti =
       (.Branch ql qr (.X cmin cmax), (.Branch a b br, .Sink ti)) ∧
     (QueryNode.Branch a b br).branch_y ql qr c ti =
       (.Branch ql qr (.Y c), (.Branch a b br, .Sink ti)) ∧
     (QueryNode.Branch a b br).merge_x ql qr cmin cmax =
       (.Branch ql qr (.X cmin cmax), .Branch a b br)) ∧
    ((QueryNode.Sink t0 : QueryNode C).branch_x ql qr cmin cmax ti =
       (.Branch ql qr (.X cmin cmax), (.Sink t0, .Sink ti)) ∧
     (QueryNode.Sink t0 : QueryNode C).branch_y ql qr c ti =
       (.Branch ql qr (.Y c), (.Sink t0, .Sink ti)) ∧
     (QueryNode.Sink t0 : QueryNode C).merge_x ql qr cmin cmax =
       (.Branch ql qr (.X cmin cmax), .Sink t0)) ∧
    (∀ q : QueryNode C,
      (q.branch_x ql qr cmin cmax ti).2.1 = q ∧
      (q.branch_y ql qr c ti).2.1 = q ∧
      (q.merge_x ql qr cmin cmax).2 = q) :=
  ⟨⟨rfl, rfl, rfl⟩, ⟨rfl, rfl, rfl⟩, fun _ => ⟨rfl, rfl, rfl⟩⟩

/-- C5: in every reachable state of the structure, the live trapezoids
and the reachable DAG leaves are in bijection: for every live trapezoid,
the query node at its `sink` is a leaf (`Sink`) referencing exactly that
trapezoid's handle, and every reachable leaf references a trapezoid
whose `sink` is that leaf's own index. The seed state satisfies it and
every insertion step restores it. -/
theorem live_trapezoid_leaf_bijection {C : Type} (s : TrapState C)
    (h : ReachableState C s) : SinkBijection s := by
  have hcons := sinkCons_of_reachableState s h
  refine ⟨?_, hcons⟩
  intro ti t hl ht
  obtain ⟨q, hr, hb⟩ := hl
  obtain ⟨t0, ht0, hs0⟩ := hcons q ti hr hb
  rw [ht] at ht0
  rw [Option.some.inj ht0, hs0]
  exact hb

/-- The bijection theorem applied to a concrete reachable state: the
seed state after one vertical-split step. -/
theorem live_trapezoid_leaf_bijection_witness :
    SinkBijection (splitVerticalStep (seedState Int) 0 0 (Trapezoid.all 0) 0 1 2) :=
  live_trapezoid_leaf_bijection _
    (ReachableState.step ReachableState.seed
      (Step.splitVertical ReachN.root rfl rfl))

/-- C6: a Y-branch's test payload is the single height argument:
`branch_y` builds the test as `Y` of the height argument alone, and the
modelled Y-test step discriminates a query point purely by comparing its
y-coordinate to that height — points below descend left, points
at-or-above descend right, and the outcome depends on nothing but the
y-coordinate. -/
theorem y_branch_single_height (q : QueryNode Int) (ql qr : QIdx) (h : Int)
    (ti : TIdx) :
    (q.branch_y ql qr h ti).1 = .Branch ql qr (.Y h) ∧
    (∀ p : Point, p.y < h → yStep h p = .descendLeft) ∧
    (∀ p : Point, h ≤ p.y → yStep h p = .descendRight) ∧
    (∀ p p' : Point, p.y = p'.y → yStep h p = yStep h p') := by
  refine ⟨rfl, ?_, ?_, ?_⟩
  · intro p hp
    simp [yStep, hp]
  · intro p hp
    simp [yStep, Int.not_lt.mpr hp]
  · intro p p' hpy
    simp [yStep, hpy]

/-- The Y-test theorem applied to concrete heights and points. -/
theorem y_branch_single_height_witness :
    ((QueryNode.Sink 0 : QueryNode Int).branch_y 1 2 5 3).1 =
      .Branch 1 2 (.Y 5) ∧
    yStep 5 ⟨100, 3⟩ = .descendLeft ∧ yStep 5 ⟨-7, 5⟩ = .descendRight := by
  have h := y_branch_single_height (QueryNode.Sink 0) 1 2 5 3
  exact ⟨h.1, h.2.1 ⟨100, 3⟩ (by decide), h.2.2.1 ⟨-7, 5⟩ (by decide)⟩

end Triangulate
